import Mathlib

/-!
Verification of the anvaya Sanskrit preprocessing / BPE tokenization
pipeline (src/preprocessor, src/tokenizer) against its design
specification.

Python strings are modelled as `List Char` (a Python `str` is a sequence
of Unicode code points); Python `Counter` objects are modelled as
insertion-ordered association lists with distinct keys, which is exactly
the observable behaviour of a Python dict/Counter.
-/

namespace Anvaya

/-- A Python string: a sequence of Unicode code points. -/
abbrev Str := List Char

/-- Association-list lookup, mirroring Python `dict.get`: the model keeps
keys distinct (first binding wins, matching dict semantics). -/
def alookup {α β : Type} [DecidableEq α] : List (α × β) → α → Option β
  | [], _ => none
  | (k, v) :: rest, key => if key = k then some v else alookup rest key

/-- Add `v` to the count stored under key `k`, mirroring
`counter[k] += v` on a Python `Counter` (insertion order preserved,
missing keys appended at the end). -/
def counterAdd {α : Type} [DecidableEq α] : List (α × Nat) → α → Nat → List (α × Nat)
  | [], k, v => [(k, v)]
  | (k', v') :: rest, k, v =>
    if k = k' then (k', v' + v) :: rest else (k', v') :: counterAdd rest k v

/-!
## Grapheme segmentation

`src/preprocessor/sandhi_split.py :: grapheme_list` scans code points,
appending any code point of Unicode general category "M" (mark) to the
current cluster buffer and flushing the buffer otherwise.

`src/tokenizer/grampheme.py :: grapheme_clusters` uses
`unicodedata.combining(ch) != 0` plus ZWJ/virāma continuation rules.

The classifier tables below cover the Devanāgarī block U+0900–U+097F
(the script-validity boundary of the system, see `is_sanskrit_char` in
src/preprocessor/common.py); the segmentation algorithms themselves are
classifier-generic, and the losslessness result below is proved for an
arbitrary classifier and then instantiated.
-/

/-- Unicode general category "M" (Mn/Mc/Me) membership for the
Devanāgarī block: combining marks U+0900–U+0903, U+093A–U+094F except
avagraha U+093D (category Lo), U+0951–U+0957, U+0962–U+0963.
Models `unicodedata.category(ch).startswith("M")`. -/
def unicodeIsMark (c : Char) : Bool :=
  let n := c.toNat
  (0x0900 ≤ n && n ≤ 0x0903) ||
  (0x093A ≤ n && n ≤ 0x094F && n ≠ 0x093D) ||
  (0x0951 ≤ n && n ≤ 0x0957) ||
  (0x0962 ≤ n && n ≤ 0x0963)

/-- Characters of the Devanāgarī block with nonzero canonical combining
class: nukta U+093C (ccc 7), virāma U+094D (ccc 9), the Vedic accents
U+0951–U+0954 (ccc 230/220).  Models `unicodedata.combining(ch) != 0`. -/
def combiningNonzero (c : Char) : Bool :=
  let n := c.toNat
  n = 0x093C || n = 0x094D || n = 0x0951 || n = 0x0952 || n = 0x0953 || n = 0x0954

/-- The virāma mark U+094D. -/
def VIRAMA : Char := '्'

/-- Zero width joiner U+200D. -/
def ZWJ : Char := '‍'

/-- Scanning loop of `grapheme_list` (sandhi_split.py lines 117-133):
`buf` is the current cluster buffer; a mark extends it, any other
character flushes it (when non-empty) and starts a new buffer. -/
def graphemeListAux (isM : Char → Bool) (buf : Str) : Str → List Str
  | [] => if buf = [] then [] else [buf]
  | c :: rest =>
    if isM c then graphemeListAux isM (buf ++ [c]) rest
    else if buf = [] then graphemeListAux isM [c] rest
    else buf :: graphemeListAux isM [c] rest

/-- `grapheme_list` from src/preprocessor/sandhi_split.py: split a verse
into clusters of a base character plus following combining marks. -/
def grapheme_list (verse : Str) : List Str :=
  graphemeListAux unicodeIsMark [] verse

/-- Scanning loop of `grapheme_clusters` (grampheme.py lines 44-64):
`current` is always non-empty; combining marks and ZWJ attach, a
character following a virāma or ZWJ attaches (conjunct formation),
anything else flushes. -/
def graphemeClustersAux (current : Str) : Str → List Str
  | [] => [current]
  | c :: rest =>
    if combiningNonzero c || c = ZWJ then graphemeClustersAux (current ++ [c]) rest
    else
      match current.getLast? with
      | some lastCp =>
        if lastCp = VIRAMA || lastCp = ZWJ then graphemeClustersAux (current ++ [c]) rest
        else current :: graphemeClustersAux [c] rest
      | none => current :: graphemeClustersAux [c] rest

/-- `grapheme_clusters` from src/tokenizer/grampheme.py. -/
def grapheme_clusters (text : Str) : List Str :=
  match text with
  | [] => []
  | c :: rest => graphemeClustersAux [c] rest

theorem graphemeListAux_join (isM : Char → Bool) :
    ∀ (s buf : Str), (graphemeListAux isM buf s).flatten = buf ++ s := by
  intro s
  induction s with
  | nil =>
    intro buf
    by_cases h : buf = [] <;> simp [graphemeListAux, h]
  | cons c rest ih =>
    intro buf
    by_cases hm : isM c
    · simp [graphemeListAux, hm, ih]
    · by_cases hb : buf = []
      · simp [graphemeListAux, hm, hb, ih]
      · simp [graphemeListAux, hm, hb, ih]

theorem graphemeClustersAux_join :
    ∀ (s current : Str), (graphemeClustersAux current s).flatten = current ++ s := by
  intro s
  induction s with
  | nil => intro current; simp [graphemeClustersAux]
  | cons c rest ih =>
    intro current
    by_cases hm : combiningNonzero c || c = ZWJ
    · simp [graphemeClustersAux, hm, ih]
    · cases hl : current.getLast? with
      | some lastCp =>
        by_cases hv : lastCp = VIRAMA || lastCp = ZWJ
        · simp [graphemeClustersAux, hm, hl, hv, ih]
        · simp [graphemeClustersAux, hm, hl, hv, ih]
      | none => simp [graphemeClustersAux, hm, hl, ih]

/-- C2: grapheme segmentation is lossless: for every input string the
concatenation of the clusters returned by `grapheme_list`
(src/preprocessor/sandhi_split.py) and by `grapheme_clusters`
(src/tokenizer/grampheme.py) reproduces the input exactly; the empty
string yields an empty cluster sequence.  (Both functions are total
Lean functions translated from total Python code with no raising
operations, so segmentation never raises; strings beginning with a
combining mark are covered by the universal quantifier.) -/
theorem grapheme_segmentation_lossless :
    (∀ s : Str, (grapheme_list s).flatten = s ∧ (grapheme_clusters s).flatten = s) ∧
    grapheme_list [] = [] ∧ grapheme_clusters [] = [] := by
  refine ⟨fun s => ⟨?_, ?_⟩, rfl, rfl⟩
  · simpa using graphemeListAux_join unicodeIsMark s []
  · cases s with
    | nil => rfl
    | cons c rest => simpa [grapheme_clusters] using graphemeClustersAux_join rest [c]

/-!
## BPE merge machinery (src/tokenizer/train.py)

`merge_vocab_once` represents a word (a tuple of symbol strings) as the
space-joined string `" ".join(word)`, replaces every occurrence of the
substring `f"{a} {b}"` by `a + b` via Python `str.replace`, and splits
on `" "` again.  The three string operations are modelled below exactly.
-/

/-- Python `" ".join(word)`: intercalate a single space. -/
def joinSp : List Str → Str
  | [] => []
  | [w] => w
  | w :: ws => w ++ ' ' :: joinSp ws

/-- Python `s.split(" ")`: split at every space character, keeping empty
pieces (`"".split(" ") == [""]`). -/
def splitOnSp : Str → List Str
  | [] => [[]]
  | c :: rest =>
    if c = ' ' then [] :: splitOnSp rest
    else
      match splitOnSp rest with
      | [] => [[c]]
      | w :: ws => (c :: w) :: ws

/-- Python substring containment `pat in s`. -/
def containsSubstr (pat : Str) : Str → Bool
  | [] => pat.isPrefixOf []
  | c :: rest => pat.isPrefixOf (c :: rest) || containsSubstr pat rest

/-- Core of Python `s.replace(pat, rep)` for a non-empty pattern
`p :: ps`: left-to-right, non-overlapping, all occurrences; scanning
resumes after the replaced segment.  The `fuel` argument starts at the
length of the string argument; the fuel-zero fallback is unreachable
because every step consumes at least one character of the string, so
the string empties no later than the fuel. -/
def replaceAllCore (p : Char) (ps rep : Str) : Nat → Str → Str
  | _, [] => []
  | 0, s => s
  | fuel + 1, c :: rest =>
    if (p :: ps).isPrefixOf (c :: rest) then
      rep ++ replaceAllCore p ps rep fuel (rest.drop ps.length)
    else c :: replaceAllCore p ps rep fuel rest

/-- Python `s.replace(pat, rep)`.  All call sites in this development
pass a pattern containing a space, hence non-empty; the `[]` branch is
unreachable (Python's empty-pattern `replace` behaves differently). -/
def replaceAll (pat rep s : Str) : Str :=
  match pat with
  | [] => s
  | p :: ps => replaceAllCore p ps rep s.length s

/-- Adjacent symbol pairs `(word[i], word[i+1])`, as enumerated by the
index loop in `get_pair_frequencies` (train.py lines 113-114). -/
def adjacentPairs : List Str → List (Str × Str)
  | a :: b :: rest => (a, b) :: adjacentPairs (b :: rest)
  | _ => []

/-- Per-word body of `merge_vocab_once` (train.py lines 130-143):
join the symbols with spaces, substring-replace the bigram
`a ++ " " ++ b` by `a ++ b`, split on spaces again; words without the
bigram substring are kept unchanged. -/
def mergeWordOnce (a b : Str) (word : List Str) : List Str :=
  let bigram : Str := a ++ ' ' :: b
  let merged : Str := a ++ b
  let s := joinSp word
  if containsSubstr bigram s then splitOnSp (replaceAll bigram merged s) else word

/-- Merge step performed inside `BPETokenizerProd.encode_word`
(src/tokenizer/main.py lines 85-89): identical join/replace/split on
the current symbol sequence, without the containment guard. -/
def encodeMergeStep (best : Str × Str) (symbols : List Str) : List Str :=
  splitOnSp (replaceAll (best.1 ++ ' ' :: best.2) (best.1 ++ best.2) (joinSp symbols))

/-- Merging of one symbol pair at the symbol-sequence level as the spec
demands (spec §9: "an implementation must merge only true adjacent-pair
occurrences at the symbol-sequence level, not via raw text
substitution"): a left-to-right scan replacing each truly adjacent
occurrence of `(a, b)` by the concatenated symbol and changing nothing
else. -/
def specMergeAdjacent (a b : Str) : List Str → List Str
  | [] => []
  | [x] => [x]
  | x :: y :: rest =>
    if x = a ∧ y = b then (a ++ b) :: specMergeAdjacent a b rest
    else x :: specMergeAdjacent a b (y :: rest)

/-- A corpus state: Python `Counter` mapping word symbol tuples to
frequencies, as an insertion-ordered association list. -/
abbrev Vocab := List (List Str × Nat)

/-- `merge_vocab_once` from src/tokenizer/train.py: apply the string
replacement to every word of the vocab, accumulating frequencies into a
fresh Counter. -/
def merge_vocab_once (pair : Str × Str) (vocab : Vocab) : Vocab :=
  vocab.foldl (fun acc wf => counterAdd acc (mergeWordOnce pair.1 pair.2 wf.1) wf.2) []

/-- `get_pair_frequencies` from src/tokenizer/train.py: count the
frequency of every adjacent symbol pair, weighted by word frequency. -/
def get_pair_frequencies (vocab : Vocab) : List ((Str × Str) × Nat) :=
  vocab.foldl
    (fun acc wf =>
      if wf.1.length < 2 then acc
      else (adjacentPairs wf.1).foldl (fun acc2 p => counterAdd acc2 p wf.2) acc)
    []

/-- `extract_token_set` from src/tokenizer/train.py: the set of symbols
occurring in the vocab, modelled as an insertion-ordered duplicate-free
list (only membership and cardinality of the Python set are used). -/
def extract_token_set (vocab : Vocab) : List Str :=
  vocab.foldl
    (fun acc wf => wf.1.foldl (fun a t => if t ∈ a then a else a ++ [t]) acc)
    []

/-- C1: the BPE merge step does NOT merge only true adjacent-pair
occurrences: replacing the bigram substring in the space-joined word
over-merges when a neighbouring symbol merely ends with the pair's
first component.  For the pair `("a", "b")` and the word
`("xa", "b")` — which contains no adjacent occurrence of the pair, as
`specMergeAdjacent` confirms — both `merge_vocab_once`'s per-word body
(train.py) and `encode_word`'s per-iteration merge (main.py) produce
the single symbol `"xab"`, joining text belonging to the symbol `"xa"`. -/
theorem mergeWordOnce_overmerges :
    mergeWordOnce ['a'] ['b'] [['x', 'a'], ['b']] = [['x', 'a', 'b']] ∧
    encodeMergeStep (['a'], ['b']) [['x', 'a'], ['b']] = [['x', 'a', 'b']] ∧
    specMergeAdjacent ['a'] ['b'] [['x', 'a'], ['b']] = [['x', 'a'], ['b']] ∧
    merge_vocab_once (['a'], ['b']) [([['x', 'a'], ['b']], 1)] = [([['x', 'a', 'b']], 1)] := by
  refine ⟨by decide, by decide, by decide, by decide⟩

/-- Total frequency mass of a vocab Counter: the sum of its word
frequencies. -/
def vocabTotal (v : Vocab) : Nat := (v.map Prod.snd).sum

theorem vocabTotal_counterAdd (c : Vocab) (k : List Str) (n : Nat) :
    vocabTotal (counterAdd c k n) = vocabTotal c + n := by
  induction c with
  | nil => simp [counterAdd, vocabTotal]
  | cons kv rest ih =>
    obtain ⟨k', v'⟩ := kv
    by_cases h : k = k'
    · simp [counterAdd, h, vocabTotal]
      omega
    · simp only [counterAdd, h, if_false, vocabTotal, List.map_cons, List.sum_cons] at *
      omega

theorem merge_vocab_once_foldl_total (f : List Str → List Str) :
    ∀ (l : Vocab) (acc : Vocab),
      vocabTotal (l.foldl (fun a wf => counterAdd a (f wf.1) wf.2) acc) =
        vocabTotal acc + vocabTotal l := by
  intro l
  induction l with
  | nil => intro acc; simp [vocabTotal]
  | cons wf rest ih =>
    intro acc
    rw [List.foldl_cons, ih (counterAdd acc (f wf.1) wf.2), vocabTotal_counterAdd]
    simp only [vocabTotal, List.map_cons, List.sum_cons]
    omega

/-- C9: one merge step preserves the total frequency mass: the sum of
the word frequencies in the Counter returned by `merge_vocab_once`
equals the sum of the word frequencies in its input Counter, for every
symbol pair and every vocab. -/
theorem merge_vocab_once_preserves_total :
    ∀ (pair : Str × Str) (vocab : Vocab),
      vocabTotal (merge_vocab_once pair vocab) = vocabTotal vocab := by
  intro pair vocab
  simpa [vocabTotal] using
    merge_vocab_once_foldl_total (mergeWordOnce pair.1 pair.2) vocab []

/-!
## BPE training (src/tokenizer/train.py)
-/

/-- Scanning loop of Python `line.split()`: split on runs of whitespace,
producing no empty words. -/
def splitWsAux (cur : Str) : Str → List Str
  | [] => if cur = [] then [] else [cur]
  | c :: rest =>
    if c.isWhitespace then
      if cur = [] then splitWsAux [] rest else cur :: splitWsAux [] rest
    else splitWsAux (cur ++ [c]) rest

/-- Python `s.split()` (no separator argument). -/
def splitWhitespace (s : Str) : List Str := splitWsAux [] s

/-- Python `s.strip()`: remove leading and trailing whitespace. -/
def stripWs (s : Str) : Str :=
  ((s.dropWhile Char.isWhitespace).reverse.dropWhile Char.isWhitespace).reverse

/-- Modelled from the spec: `_grapheme_clusters` in src/tokenizer/train.py
delegates to the external `regex` library (`regex.findall(r"\X", s)`),
whose code is not part of this repository.  Spec §4.1 specifies the
segmenter used for the initial corpus segmentation: scan code points,
appending combining-mark code points to the current cluster and
flushing otherwise — the same algorithm as `grapheme_list`, which this
model reuses (restricted to the Devanāgarī block, the system's script
boundary). -/
def xGraphemeClusters (s : Str) : List Str :=
  graphemeListAux unicodeIsMark [] s

/-- Default end-of-morpheme marker (train.py `DEFAULT_EOS`). -/
def DEFAULT_EOS : Str := "</M>".data

/-- Default special-token list (train.py `DEFAULT_SPECIAL_TOKENS`). -/
def DEFAULT_SPECIAL_TOKENS : List Str :=
  ["<DANDA>".data, "<DANDA2>".data, "</M>".data, "<PAD>".data, "<UNK>".data]

/-- Default target vocabulary size (train.py `DEFAULT_TARGET_VOCAB`). -/
def DEFAULT_TARGET_VOCAB : Nat := 28000

/-- Default pair-frequency floor (train.py `DEFAULT_MIN_FREQ`). -/
def DEFAULT_MIN_FREQ : Nat := 2

/-- `_build_initial_vocab` from src/tokenizer/train.py: for each
non-empty line, for each non-empty stripped word, count the symbol
tuple — the word itself for special tokens, its grapheme clusters
otherwise, in both cases followed by the end-of-morpheme marker. -/
def build_initial_vocab (lines : List Str) (eos : Str) (specials : List Str) : Vocab :=
  lines.foldl
    (fun vocab line =>
      if line = [] then vocab
      else
        (splitWhitespace line).foldl
          (fun vocab2 raw =>
            let word := stripWs raw
            if word = [] then vocab2
            else if word ∈ specials then counterAdd vocab2 [word, eos] 1
            else counterAdd vocab2 (xGraphemeClusters word ++ [eos]) 1)
          vocab)
    []

/-- Python string comparison `<` (lexicographic on code points). -/
def strLt : Str → Str → Bool
  | _, [] => false
  | [], _ :: _ => true
  | a :: as, b :: bs => if a < b then true else if b < a then false else strLt as bs

/-- Python tuple comparison `<` on string pairs. -/
def pairLt (p q : Str × Str) : Bool :=
  strLt p.1 q.1 || (p.1 = q.1 && strLt p.2 q.2)

/-- `sorted(candidates)[0]`: the least pair under Python tuple order. -/
def minPairFold : List (Str × Str) → Option (Str × Str)
  | [] => none
  | p :: rest => some (rest.foldl (fun m q => if pairLt q m then q else m) p)

/-- `best_freq = max(pair_freqs.values())` (0 on an empty dict; the
caller never reaches the max on an empty dict). -/
def maxFreq (pf : List ((Str × Str) × Nat)) : Nat :=
  pf.foldl (fun m kv => max m kv.2) 0

/-- Pair selection of the training loop (train.py lines 253-260):
on a non-empty pair-frequency table, keep the pairs attaining the
maximal frequency and pick the lexicographically smallest. -/
def select_best_pair (pf : List ((Str × Str) × Nat)) : Option (Str × Str) :=
  match pf with
  | [] => none
  | _ :: _ => minPairFold ((pf.filter (fun kv => kv.2 = maxFreq pf)).map Prod.fst)

/-- The `while True` merge loop of `train_bpe` (train.py lines 242-284).
`fuel` is the remaining merge budget `max_merges - merge_count`, so the
fuel-zero stop is exactly the code's `merge_count >= max_merges` break.
Alongside the final vocab and merge list the model records the corpus
state after each merge (the loop's successive `vocab` values). -/
def trainLoop (targetVocab minFreq : Nat) :
    Nat → Vocab → List Str → List (Str × Str) → List Vocab →
      Vocab × List (Str × Str) × List Vocab
  | fuel, vocab, tokenSet, merges, trace =>
    if targetVocab ≤ tokenSet.length then (vocab, merges, trace)
    else
      match fuel with
      | 0 => (vocab, merges, trace)
      | fuel + 1 =>
        let pf := get_pair_frequencies vocab
        match select_best_pair pf with
        | none => (vocab, merges, trace)
        | some bestPair =>
          if maxFreq pf < minFreq then (vocab, merges, trace)
          else
            let vocab2 := merge_vocab_once bestPair vocab
            trainLoop targetVocab minFreq fuel vocab2 (extract_token_set vocab2)
              (merges ++ [bestPair]) (trace ++ [vocab2])

/-- Per-token total frequencies over the final vocab
(`token_freq` accumulation in `build_token2id`, train.py lines 175-179). -/
def token_freq (vocab : Vocab) : List (Str × Nat) :=
  vocab.foldl (fun acc wf => wf.1.foldl (fun a t => counterAdd a t wf.2) acc) []

/-- First-occurrence deduplication (the `seen` set loop over
`special_tokens`, train.py lines 184-187). -/
def dedupFirst (l : List Str) : List Str :=
  l.foldl (fun acc s => if s ∈ acc then acc else acc ++ [s]) []

/-- Python string comparison `<=`. -/
def strLe (a b : Str) : Bool := strLt a b || a = b

/-- Sort key of `build_token2id` (train.py line 191): ascending in
`(-frequency, token)`, i.e. descending frequency with lexicographic
tie-break. -/
def sortKeyLe (x y : Str × Nat) : Bool :=
  y.2 < x.2 || (x.2 = y.2 && strLe x.1 y.1)

/-- `sorted_tokens` of `build_token2id` (train.py lines 189-192): the
non-special tokens sorted by the key above. -/
def sorted_tokens (vocab : Vocab) (seen : List Str) : List (Str × Nat) :=
  ((token_freq vocab).filter (fun kv => kv.1 ∉ seen)).mergeSort sortKeyLe

/-- The ordered token list of `build_token2id`: deduplicated special
tokens first, then the sorted remaining tokens, then the end-of-morpheme
marker if not already present. -/
def token_list (vocab : Vocab) (specials : List Str) (eos : Str) : List Str :=
  let seen := dedupFirst specials
  let tl := seen ++ (sorted_tokens vocab seen).map Prod.fst
  if eos ∈ tl then tl else tl ++ [eos]

/-- `build_token2id` from src/tokenizer/train.py: enumerate the token
list. -/
def build_token2id (vocab : Vocab) (specials : List Str) (eos : Str) : List (Str × Nat) :=
  (token_list vocab specials eos).enum.map (fun p => (p.2, p.1))

/-- Result record of `train_bpe` (the `model` dict), together with the
recorded corpus states after each merge. -/
structure TrainModel where
  merges : List (Str × Str)
  token2id : List (Str × Nat)
  finalVocab : Vocab
  trace : List Vocab

/-- `train_bpe` from src/tokenizer/train.py, with the default
configuration the function hard-codes (`target_vocab = 28000`,
`min_freq = 2`, `max_merges = target_vocab * 10`, default end-of-morpheme
marker and special tokens). -/
def train_bpe (lines : List Str) : TrainModel :=
  let vocab := build_initial_vocab lines DEFAULT_EOS DEFAULT_SPECIAL_TOKENS
  let tokenSet := extract_token_set vocab
  let maxMerges := DEFAULT_TARGET_VOCAB * 10
  let r := trainLoop DEFAULT_TARGET_VOCAB DEFAULT_MIN_FREQ maxMerges vocab tokenSet [] []
  { merges := r.2.1
    token2id := build_token2id r.1 DEFAULT_SPECIAL_TOKENS DEFAULT_EOS
    finalVocab := r.1
    trace := r.2.2 }

/-!
## Properties of the pair-selection order
-/

theorem strLt_cons_iff (x y : Char) (xs ys : Str) :
    strLt (x :: xs) (y :: ys) = true ↔ x < y ∨ (x = y ∧ strLt xs ys = true) := by
  simp only [strLt]
  by_cases h1 : x < y
  · simp [h1]
  · by_cases h2 : y < x
    · rw [if_neg h1, if_pos h2]
      constructor
      · intro h; simp at h
      · rintro (h | ⟨rfl, _⟩)
        · exact absurd h h1
        · exact absurd h2 (lt_irrefl x)
    · have hxy : x = y := le_antisymm (not_lt.mp h2) (not_lt.mp h1)
      simp [h1, h2, hxy]

theorem strLt_trans :
    ∀ a b c : Str, strLt a b = true → strLt b c = true → strLt a c = true := by
  intro a
  induction a with
  | nil =>
    intro b c hab hbc
    cases b with
    | nil => simp [strLt] at hab
    | cons y ys =>
      cases c with
      | nil => simp [strLt] at hbc
      | cons z zs => simp [strLt]
  | cons x xs ih =>
    intro b c hab hbc
    cases b with
    | nil => simp [strLt] at hab
    | cons y ys =>
      cases c with
      | nil => simp [strLt] at hbc
      | cons z zs =>
        rw [strLt_cons_iff] at hab hbc ⊢
        rcases hab with h1 | ⟨rfl, h1⟩
        · rcases hbc with h2 | ⟨rfl, h2⟩
          · exact Or.inl (lt_trans h1 h2)
          · exact Or.inl h1
        · rcases hbc with h2 | ⟨rfl, h2⟩
          · exact Or.inl h2
          · exact Or.inr ⟨rfl, ih _ _ h1 h2⟩

theorem strLt_connex :
    ∀ a b : Str, strLt a b = true ∨ a = b ∨ strLt b a = true := by
  intro a
  induction a with
  | nil =>
    intro b
    cases b with
    | nil => right; left; rfl
    | cons y ys => left; simp [strLt]
  | cons x xs ih =>
    intro b
    cases b with
    | nil => right; right; simp [strLt]
    | cons y ys =>
      rcases lt_trichotomy x y with h | h | h
      · left; simp [strLt, h]
      · subst h
        rcases ih ys with h2 | h2 | h2
        · left; simp [strLt, h2]
        · right; left; rw [h2]
        · right; right; simp [strLt, h2]
      · right; right; simp [strLt, h, lt_asymm h]

theorem pairLt_trans {p q r : Str × Str} :
    pairLt p q = true → pairLt q r = true → pairLt p r = true := by
  intro hpq hqr
  simp only [pairLt, Bool.or_eq_true, Bool.and_eq_true, decide_eq_true_eq] at hpq hqr ⊢
  rcases hpq with h1 | ⟨h1, h1'⟩ <;> rcases hqr with h2 | ⟨h2, h2'⟩
  · exact Or.inl (strLt_trans _ _ _ h1 h2)
  · rw [← h2]; exact Or.inl h1
  · rw [h1]; exact Or.inl h2
  · exact Or.inr ⟨h1.trans h2, strLt_trans _ _ _ h1' h2'⟩

theorem pairLt_connex (p q : Str × Str) :
    pairLt p q = true ∨ p = q ∨ pairLt q p = true := by
  obtain ⟨p1, p2⟩ := p
  obtain ⟨q1, q2⟩ := q
  rcases strLt_connex p1 q1 with h | h | h
  · left; simp [pairLt, h]
  · subst h
    rcases strLt_connex p2 q2 with h2 | h2 | h2
    · left; simp [pairLt, h2]
    · right; left; rw [h2]
    · right; right; simp [pairLt, h2]
  · right; right; simp [pairLt, h]

/-- Either-equal-or-less, the order in which `sorted(...)[0]` is
minimal. -/
def pairLeP (p q : Str × Str) : Prop := p = q ∨ pairLt p q = true

theorem pairLeP_trans {p q r : Str × Str} (h1 : pairLeP p q) (h2 : pairLeP q r) :
    pairLeP p r := by
  rcases h1 with rfl | h1
  · exact h2
  · rcases h2 with rfl | h2
    · exact Or.inr h1
    · exact Or.inr (pairLt_trans h1 h2)

theorem minPairFold_go_spec :
    ∀ (l : List (Str × Str)) (m : Str × Str),
      pairLeP (l.foldl (fun m q => if pairLt q m then q else m) m) m ∧
      ∀ q ∈ l, pairLeP (l.foldl (fun m q => if pairLt q m then q else m) m) q := by
  intro l
  induction l with
  | nil => intro m; exact ⟨Or.inl rfl, by simp⟩
  | cons q l ih =>
    intro m
    simp only [List.foldl_cons, List.mem_cons]
    by_cases h : pairLt q m = true
    · simp only [h, if_true]
      refine ⟨pairLeP_trans (ih q).1 (Or.inr h), ?_⟩
      rintro x (rfl | hx)
      · exact (ih x).1
      · exact (ih q).2 x hx
    · simp only [h, if_false]
      refine ⟨(ih m).1, ?_⟩
      rintro x (rfl | hx)
      · rcases pairLt_connex m x with hc | hc | hc
        · exact pairLeP_trans (ih m).1 (Or.inr hc)
        · exact pairLeP_trans (ih m).1 (Or.inl hc)
        · exact absurd hc h
      · exact (ih m).2 x hx

theorem minPairFold_go_mem :
    ∀ (l : List (Str × Str)) (m : Str × Str),
      l.foldl (fun m q => if pairLt q m then q else m) m = m ∨
        l.foldl (fun m q => if pairLt q m then q else m) m ∈ l := by
  intro l
  induction l with
  | nil => intro m; exact Or.inl rfl
  | cons q l ih =>
    intro m
    simp only [List.foldl_cons, List.mem_cons]
    by_cases h : pairLt q m = true
    · simp only [h, if_true]
      rcases ih q with h2 | h2
      · exact Or.inr (Or.inl h2)
      · exact Or.inr (Or.inr h2)
    · simp only [h, if_false]
      rcases ih m with h2 | h2
      · exact Or.inl h2
      · exact Or.inr (Or.inr h2)

theorem maxFreq_go_le :
    ∀ (l : List ((Str × Str) × Nat)) (acc : Nat),
      acc ≤ l.foldl (fun m kv => max m kv.2) acc ∧
      ∀ kv ∈ l, kv.2 ≤ l.foldl (fun m kv => max m kv.2) acc := by
  intro l
  induction l with
  | nil => intro acc; exact ⟨le_refl _, by simp⟩
  | cons kv l ih =>
    intro acc
    simp only [List.foldl_cons, List.mem_cons]
    refine ⟨le_trans (le_max_left _ _) (ih (max acc kv.2)).1, ?_⟩
    rintro x (rfl | hx)
    · exact le_trans (le_max_right _ _) (ih (max acc x.2)).1
    · exact (ih (max acc kv.2)).2 x hx

/-- C6: whenever the training loop's pair selection returns a pair, it
is a pair of maximal frequency among all adjacent symbol pairs, and the
lexicographically smallest among the maximal-frequency pairs; moreover
training, a pure function of the corpus, is deterministic: equal
corpora produce equal models (merge list and token2id included). -/
theorem select_best_pair_spec :
    (∀ (pf : List ((Str × Str) × Nat)) (p : Str × Str),
        select_best_pair pf = some p →
          (p, maxFreq pf) ∈ pf ∧
          (∀ kv ∈ pf, kv.2 ≤ maxFreq pf) ∧
          (∀ q, (q, maxFreq pf) ∈ pf → p = q ∨ pairLt p q = true)) ∧
    ∀ lines lines' : List Str, lines = lines' → train_bpe lines = train_bpe lines' := by
  constructor
  · intro pf p hsel
    have hmax : ∀ kv ∈ pf, kv.2 ≤ maxFreq pf := fun kv hkv =>
      (maxFreq_go_le pf 0).2 kv hkv
    have hsel2 :
        minPairFold ((pf.filter (fun kv => kv.2 = maxFreq pf)).map Prod.fst) = some p := by
      cases pf with
      | nil => simp [select_best_pair] at hsel
      | cons kv0 rest => simpa [select_best_pair] using hsel
    rcases hcl : (pf.filter (fun kv => kv.2 = maxFreq pf)).map Prod.fst with _ | ⟨c0, cs⟩
    · rw [hcl] at hsel2
      simp [minPairFold] at hsel2
    · rw [hcl] at hsel2
      simp only [minPairFold, Option.some.injEq] at hsel2
      have hpc : p ∈ (pf.filter (fun kv => kv.2 = maxFreq pf)).map Prod.fst := by
        rw [hcl]
        rcases minPairFold_go_mem cs c0 with h | h
        · rw [← hsel2, h]
          exact List.mem_cons_self _ _
        · rw [← hsel2]
          exact List.mem_cons_of_mem _ h
      have hpin : (p, maxFreq pf) ∈ pf := by
        obtain ⟨kv, hkvmem, hkvfst⟩ := List.mem_map.mp hpc
        obtain ⟨hkvpf, hkvval⟩ := List.mem_filter.mp hkvmem
        have hkveq : kv = (p, maxFreq pf) := by
          obtain ⟨k1, k2⟩ := kv
          simp only at hkvfst
          simp only [decide_eq_true_eq] at hkvval
          rw [hkvfst, hkvval]
        rw [← hkveq]
        exact hkvpf
      refine ⟨hpin, hmax, ?_⟩
      intro q hq
      have hqc : q ∈ c0 :: cs := by
        rw [← hcl]
        exact List.mem_map.mpr ⟨(q, maxFreq pf), List.mem_filter.mpr ⟨hq, by simp⟩, rfl⟩
      rcases List.mem_cons.mp hqc with rfl | hqcs
      · rcases (minPairFold_go_spec cs q).1 with h | h
        · left; rw [← hsel2, h]
        · right; rw [← hsel2]; exact h
      · rcases (minPairFold_go_spec cs c0).2 q hqcs with h | h
        · left; rw [← hsel2, h]
        · right; rw [← hsel2]; exact h
  · intro lines lines' h
    rw [h]

/-- Concrete instantiation of `select_best_pair_spec`: on the table
`{("a","b") : 2, ("b","a") : 2}` the selected pair `("a","b")` attains
the maximal frequency 2 and is lexicographically least among the
maximal pairs. -/
theorem select_best_pair_spec_witness :
    ((['a'], ['b']), maxFreq [(((['a'], ['b'])), 2), (((['b'], ['a'])), 2)]) ∈
        [(((['a'], ['b'])), 2), (((['b'], ['a'])), 2)] ∧
      (∀ kv ∈ [(((['a'], ['b'])), 2), (((['b'], ['a'])), 2)],
          kv.2 ≤ maxFreq [(((['a'], ['b'])), 2), (((['b'], ['a'])), 2)]) ∧
      ∀ q, (q, maxFreq [(((['a'], ['b'])), 2), (((['b'], ['a'])), 2)]) ∈
          [(((['a'], ['b'])), 2), (((['b'], ['a'])), 2)] →
        (['a'], ['b']) = q ∨ pairLt (['a'], ['b']) q = true :=
  select_best_pair_spec.1 [(((['a'], ['b'])), 2), (((['b'], ['a'])), 2)] (['a'], ['b'])
    (by decide)

/-!
## Symbol counting across merge steps (claim C5)
-/

/-- C5 counterexample: running `train_bpe` on the corpus line
`"ab ab ab ac ac db db"` (with the hard-coded default configuration),
the corpus representation has 5 distinct symbols after the first merge
(`("b","</M>")`) but 6 after the second (`("a","b</M>")`, which leaves
`"a"` alive in `("a","c","</M>")` and `"b</M>"` alive in
`("d","b</M>")` while creating `"ab</M>"`): the number of distinct
symbols in the corpus representation is NOT non-increasing after each
merge step of BPE training. -/
theorem distinct_symbols_can_increase :
    (extract_token_set ((train_bpe ["ab ab ab ac ac db db".data]).trace.getD 0 [])).length = 5 ∧
    (extract_token_set ((train_bpe ["ab ab ab ac ac db db".data]).trace.getD 1 [])).length = 6 ∧
    ¬ (extract_token_set ((train_bpe ["ab ab ab ac ac db db".data]).trace.getD 1 [])).length ≤
        (extract_token_set ((train_bpe ["ab ab ab ac ac db db".data]).trace.getD 0 [])).length := by
  refine ⟨by decide, by decide, by decide⟩

theorem splitOnSp_length (s : Str) : (splitOnSp s).length = s.count ' ' + 1 := by
  induction s with
  | nil => simp [splitOnSp]
  | cons c rest ih =>
    by_cases h : c = ' '
    · subst h
      simp [splitOnSp, ih, List.count_cons]
    · rcases hsp : splitOnSp rest with _ | ⟨w, ws⟩
      · rw [hsp] at ih
        simp at ih
      · have ih2 : ws.length + 1 = rest.count ' ' + 1 := by
          rw [hsp] at ih
          simpa using ih
        simp only [splitOnSp, if_neg h, hsp, List.length_cons]
        simp [List.count_cons, h]
        omega

theorem replaceAllCore_count_le (p : Char) (ps rep : Str)
    (hc : rep.count ' ' ≤ ((p :: ps) : Str).count ' ') :
    ∀ (fuel : Nat) (s : Str),
      (replaceAllCore p ps rep fuel s).count ' ' ≤ s.count ' ' := by
  intro fuel
  induction fuel with
  | zero => intro s; cases s <;> simp [replaceAllCore]
  | succ fuel ih =>
    intro s
    cases s with
    | nil => simp [replaceAllCore]
    | cons c rest =>
      by_cases h : (p :: ps).isPrefixOf (c :: rest) = true
      · have hpre : (p :: ps) <+: (c :: rest) := List.isPrefixOf_iff_prefix.mp h
        obtain ⟨t, ht⟩ := hpre
        have hrest : rest = ps ++ t := by
          have := ht
          simp only [List.cons_append, List.cons.injEq] at this
          exact this.2.symm
        have hdrop : rest.drop ps.length = t := by
          rw [hrest, List.drop_left]
        simp only [replaceAllCore, h, if_true, List.count_append, hdrop]
        have h2 := ih t
        have h3 : ((c :: rest) : Str).count ' ' =
            ((p :: ps) : Str).count ' ' + t.count ' ' := by
          rw [← ht, List.count_append]
        omega
      · have h2 := ih rest
        simp only [replaceAllCore]
        rw [if_neg h]
        by_cases hcsp : c = ' '
        · simp [List.count_cons, hcsp]
          all_goals omega
        · simp [List.count_cons, hcsp]
          all_goals omega

theorem replaceAll_count_le (pat rep s : Str) (hc : rep.count ' ' ≤ pat.count ' ') :
    (replaceAll pat rep s).count ' ' ≤ s.count ' ' := by
  cases pat with
  | nil => simp [replaceAll]
  | cons p ps => exact replaceAllCore_count_le p ps rep hc s.length s

theorem joinSp_count (w : List Str) (h : ∀ sym ∈ w, ' ' ∉ sym) :
    (joinSp w).count ' ' = w.length - 1 := by
  induction w with
  | nil => simp [joinSp]
  | cons x ws ih =>
    cases ws with
    | nil =>
      simp only [joinSp, List.length_cons, List.length_nil]
      rw [List.count_eq_zero.mpr (h x (List.mem_cons_self _ _))]
    | cons y ys =>
      have hx : ' ' ∉ x := h x (List.mem_cons_self _ _)
      have htail : ∀ sym ∈ y :: ys, ' ' ∉ sym := fun sym hs =>
        h sym (List.mem_cons_of_mem _ hs)
      have := ih htail
      simp only [joinSp] at *
      rw [List.count_append, List.count_cons]
      rw [List.count_eq_zero.mpr hx]
      simp at this ⊢
      omega

theorem containsSubstr_cons_nil (c : Char) (cs : Str) :
    containsSubstr (c :: cs) [] = false := by
  simp [containsSubstr, List.isPrefixOf]

theorem mergeWordOnce_length_le (a b : Str) (w : List Str)
    (h : ∀ sym ∈ w, ' ' ∉ sym) :
    (mergeWordOnce a b w).length ≤ w.length := by
  unfold mergeWordOnce
  by_cases hin : containsSubstr (a ++ ' ' :: b) (joinSp w) = true
  · cases w with
    | nil =>
      exfalso
      cases a with
      | nil =>
        simp only [List.nil_append, joinSp] at hin
        rw [containsSubstr_cons_nil] at hin
        exact Bool.false_ne_true hin
      | cons a0 as =>
        simp only [List.cons_append, joinSp] at hin
        rw [containsSubstr_cons_nil] at hin
        exact Bool.false_ne_true hin
    | cons w0 ws =>
      simp only [hin, if_true]
      rw [splitOnSp_length]
      have hrep : ((a ++ b) : Str).count ' ' ≤ ((a ++ ' ' :: b) : Str).count ' ' := by
        simp [List.count_append, List.count_cons]
      have h1 := replaceAll_count_le (a ++ ' ' :: b) (a ++ b) (joinSp (w0 :: ws)) hrep
      have h2 := joinSp_count (w0 :: ws) h
      simp only [List.length_cons] at h2 ⊢
      omega
  · simp [hin]

/-- Total number of symbol occurrences in the corpus representation:
the summed symbol-sequence lengths, weighted by word frequency. -/
def vocabOccurrences (v : Vocab) : Nat :=
  (v.map (fun wf => wf.1.length * wf.2)).sum

theorem vocabOccurrences_counterAdd (c : Vocab) (k : List Str) (n : Nat) :
    vocabOccurrences (counterAdd c k n) = vocabOccurrences c + k.length * n := by
  induction c with
  | nil => simp [counterAdd, vocabOccurrences]
  | cons kv rest ih =>
    obtain ⟨k', v'⟩ := kv
    by_cases h : k = k'
    · subst h
      simp [counterAdd, vocabOccurrences, Nat.mul_add]
      ring
    · simp only [counterAdd, h, if_false, vocabOccurrences, List.map_cons, List.sum_cons] at *
      omega

theorem vocabOccurrences_foldl (f : List Str → List Str) :
    ∀ (l : Vocab) (acc : Vocab),
      vocabOccurrences (l.foldl (fun a wf => counterAdd a (f wf.1) wf.2) acc) =
        vocabOccurrences acc + (l.map (fun wf => (f wf.1).length * wf.2)).sum := by
  intro l
  induction l with
  | nil => intro acc; simp
  | cons wf rest ih =>
    intro acc
    rw [List.foldl_cons, ih (counterAdd acc (f wf.1) wf.2), vocabOccurrences_counterAdd]
    simp only [List.map_cons, List.sum_cons]
    omega

theorem trainLoop_merges_length (tv mf : Nat) :
    ∀ (fuel : Nat) (vocab : Vocab) (ts : List Str) (merges : List (Str × Str))
      (trace : List Vocab),
      (trainLoop tv mf fuel vocab ts merges trace).2.1.length ≤ merges.length + fuel := by
  intro fuel
  induction fuel with
  | zero =>
    intro vocab ts merges trace
    unfold trainLoop
    split <;> simp
  | succ fuel ih =>
    intro vocab ts merges trace
    unfold trainLoop
    split
    · simp
    · dsimp only
      rcases hsel : select_best_pair (get_pair_frequencies vocab) with _ | bp
      · simp
      · dsimp only
        split
        · simp
        · have h2 := ih (merge_vocab_once bp vocab)
            (extract_token_set (merge_vocab_once bp vocab)) (merges ++ [bp])
            (trace ++ [merge_vocab_once bp vocab])
          simp only [List.length_append, List.length_cons, List.length_nil] at h2
          omega

/-- C5 amended: the counterexample above shows the number of DISTINCT
symbols can grow by a merge step (the merged symbol is new while both
halves survive elsewhere); what is non-increasing is the total number
of symbol occurrences in the corpus representation (every word's symbol
sequence can only shrink, since each bigram replacement deletes one
space of the joined representation), for any vocab whose symbols are
space-free — as holds for every corpus state, symbols being built from
whitespace-split words.  The merge loop always terminates within the
configured safety cap `target_vocab * 10 = 280000`: its recursion
budget is exactly `max_merges - merge_count`, so the merge list never
exceeds the cap. -/
theorem merge_step_occurrences_nonincreasing :
    (∀ (pair : Str × Str) (vocab : Vocab),
        (∀ wf ∈ vocab, ∀ sym ∈ wf.1, ' ' ∉ sym) →
        vocabOccurrences (merge_vocab_once pair vocab) ≤ vocabOccurrences vocab) ∧
    ∀ lines : List Str, (train_bpe lines).merges.length ≤ DEFAULT_TARGET_VOCAB * 10 := by
  constructor
  · intro pair vocab h
    unfold merge_vocab_once
    rw [vocabOccurrences_foldl (mergeWordOnce pair.1 pair.2) vocab []]
    simp only [vocabOccurrences, List.map_nil, List.sum_nil, Nat.zero_add]
    apply List.sum_le_sum
    intro wf hwf
    exact Nat.mul_le_mul_right _ (mergeWordOnce_length_le pair.1 pair.2 wf.1 (h wf hwf))
  · intro lines
    have := trainLoop_merges_length DEFAULT_TARGET_VOCAB DEFAULT_MIN_FREQ
      (DEFAULT_TARGET_VOCAB * 10)
      (build_initial_vocab lines DEFAULT_EOS DEFAULT_SPECIAL_TOKENS)
      (extract_token_set (build_initial_vocab lines DEFAULT_EOS DEFAULT_SPECIAL_TOKENS)) [] []
    simpa [train_bpe] using this

/-- Concrete instantiation of `merge_step_occurrences_nonincreasing`:
merging `("a","b")` in the vocab `{("a","b"): 2}` does not increase the
total symbol-occurrence count. -/
theorem merge_step_occurrences_nonincreasing_witness :
    vocabOccurrences (merge_vocab_once (['a'], ['b']) [([['a'], ['b']], 2)]) ≤
      vocabOccurrences [([['a'], ['b']], 2)] :=
  merge_step_occurrences_nonincreasing.1 (['a'], ['b']) [([['a'], ['b']], 2)] (by decide)

/-!
## Structure of the token-to-id mapping (claim C7)
-/

theorem counterAdd_keys {α : Type} [DecidableEq α] (c : List (α × Nat)) (k : α) (v : Nat) :
    (counterAdd c k v).map Prod.fst =
      if k ∈ c.map Prod.fst then c.map Prod.fst else c.map Prod.fst ++ [k] := by
  induction c with
  | nil => simp [counterAdd]
  | cons kv rest ih =>
    obtain ⟨k', v'⟩ := kv
    by_cases h : k = k'
    · subst h
      simp [counterAdd]
    · simp only [counterAdd, if_neg h, List.map_cons, ih]
      by_cases h2 : k ∈ rest.map Prod.fst
      · simp [h2, List.mem_cons, h]
      · simp [h2, List.mem_cons, h]

theorem counterAdd_keys_nodup {α : Type} [DecidableEq α] (c : List (α × Nat)) (k : α)
    (v : Nat) (h : (c.map Prod.fst).Nodup) : ((counterAdd c k v).map Prod.fst).Nodup := by
  rw [counterAdd_keys]
  by_cases h2 : k ∈ c.map Prod.fst
  · simpa [h2] using h
  · rw [if_neg h2]
    refine List.nodup_append.mpr ⟨h, List.nodup_singleton k, ?_⟩
    intro a ha hb
    rw [List.mem_singleton] at hb
    subst hb
    exact h2 ha

theorem counterFold_keys_nodup {α : Type} [DecidableEq α] (n : Nat) :
    ∀ (syms : List α) (acc : List (α × Nat)),
      (acc.map Prod.fst).Nodup →
      ((syms.foldl (fun a t => counterAdd a t n) acc).map Prod.fst).Nodup := by
  intro syms
  induction syms with
  | nil => intro acc h; exact h
  | cons t ts ih =>
    intro acc h
    exact ih (counterAdd acc t n) (counterAdd_keys_nodup acc t n h)

theorem token_freq_keys_nodup (vocab : Vocab) :
    ((token_freq vocab).map Prod.fst).Nodup := by
  unfold token_freq
  suffices h : ∀ (l : Vocab) (acc : List (Str × Nat)),
      (acc.map Prod.fst).Nodup →
      ((l.foldl (fun acc wf => wf.1.foldl (fun a t => counterAdd a t wf.2) acc) acc).map
          Prod.fst).Nodup by
    exact h vocab [] (by simp)
  intro l
  induction l with
  | nil => intro acc h; exact h
  | cons wf rest ih =>
    intro acc h
    exact ih _ (counterFold_keys_nodup wf.2 wf.1 acc h)

theorem dedupFirst_nodup (l : List Str) : (dedupFirst l).Nodup := by
  unfold dedupFirst
  suffices h : ∀ (l : List Str) (acc : List Str), acc.Nodup →
      (l.foldl (fun acc s => if s ∈ acc then acc else acc ++ [s]) acc).Nodup by
    exact h l [] List.nodup_nil
  intro l2
  induction l2 with
  | nil => intro acc h; exact h
  | cons s rest ih =>
    intro acc h
    by_cases hm : s ∈ acc
    · simpa [hm] using ih acc h
    · simp only [List.foldl_cons, if_neg hm]
      refine ih (acc ++ [s]) (List.nodup_append.mpr ⟨h, List.nodup_singleton s, ?_⟩)
      intro a ha hb
      rw [List.mem_singleton] at hb
      subst hb
      exact hm ha

theorem strLe_trans {a b c : Str} (h1 : strLe a b = true) (h2 : strLe b c = true) :
    strLe a c = true := by
  simp only [strLe, Bool.or_eq_true, decide_eq_true_eq] at h1 h2 ⊢
  rcases h1 with h1 | rfl
  · rcases h2 with h2 | rfl
    · exact Or.inl (strLt_trans _ _ _ h1 h2)
    · exact Or.inl h1
  · exact h2

theorem strLe_total (a b : Str) : (strLe a b || strLe b a) = true := by
  simp only [strLe, Bool.or_eq_true, decide_eq_true_eq]
  rcases strLt_connex a b with h | h | h
  · exact Or.inl (Or.inl h)
  · exact Or.inl (Or.inr h)
  · exact Or.inr (Or.inl h)

theorem sortKeyLe_trans (x y z : Str × Nat)
    (h1 : sortKeyLe x y = true) (h2 : sortKeyLe y z = true) : sortKeyLe x z = true := by
  simp only [sortKeyLe, Bool.or_eq_true, Bool.and_eq_true, decide_eq_true_eq] at h1 h2 ⊢
  rcases h1 with h1 | ⟨h1, h1'⟩
  · rcases h2 with h2 | ⟨h2, h2'⟩
    · exact Or.inl (lt_trans h2 h1)
    · exact Or.inl (h2 ▸ h1)
  · rcases h2 with h2 | ⟨h2, h2'⟩
    · exact Or.inl (h1 ▸ h2)
    · exact Or.inr ⟨h1.trans h2, strLe_trans h1' h2'⟩

theorem sortKeyLe_total (x y : Str × Nat) : (sortKeyLe x y || sortKeyLe y x) = true := by
  simp only [sortKeyLe, Bool.or_eq_true, Bool.and_eq_true, decide_eq_true_eq]
  rcases Nat.lt_trichotomy x.2 y.2 with h | h | h
  · exact Or.inr (Or.inl h)
  · rcases Bool.or_eq_true _ _ |>.mp (strLe_total x.1 y.1) with h2 | h2
    · exact Or.inl (Or.inr ⟨h, h2⟩)
    · exact Or.inr (Or.inr ⟨h.symm, h2⟩)
  · exact Or.inl (Or.inl h)

/-- C7: structure of the token-to-id mapping built by `build_token2id`:
the assigned ids are exactly the dense range `[0, N)` in token-list
order; the token list is duplicate-free (each token gets a unique id);
the declared special tokens (first occurrences, in declared order)
occupy the lowest ids; the remaining tokens are exactly the non-special
symbols observed in the final corpus state, ordered by descending total
frequency with ties broken by lexicographic order; and the
end-of-morpheme marker is always present. -/
theorem build_token2id_spec :
    ∀ (vocab : Vocab) (specials : List Str) (eos : Str),
      (build_token2id vocab specials eos).map Prod.snd =
          List.range (token_list vocab specials eos).length ∧
      (token_list vocab specials eos).Nodup ∧
      (token_list vocab specials eos).take (dedupFirst specials).length =
          dedupFirst specials ∧
      List.Pairwise (fun x y => sortKeyLe x y = true)
        (sorted_tokens vocab (dedupFirst specials)) ∧
      (sorted_tokens vocab (dedupFirst specials)).Perm
        ((token_freq vocab).filter (fun kv => kv.1 ∉ dedupFirst specials)) ∧
      eos ∈ token_list vocab specials eos := by
  intro vocab specials eos
  have hperm : (sorted_tokens vocab (dedupFirst specials)).Perm
      ((token_freq vocab).filter (fun kv => kv.1 ∉ dedupFirst specials)) :=
    List.mergeSort_perm _ sortKeyLe
  have hrestNodup :
      ((sorted_tokens vocab (dedupFirst specials)).map Prod.fst).Nodup := by
    have hsub : ((token_freq vocab).filter
        (fun kv => kv.1 ∉ dedupFirst specials)).Sublist (token_freq vocab) :=
      List.filter_sublist _
    have h1 : (((token_freq vocab).filter
        (fun kv => kv.1 ∉ dedupFirst specials)).map Prod.fst).Nodup :=
      (token_freq_keys_nodup vocab).sublist (hsub.map Prod.fst)
    exact ((hperm.map Prod.fst).nodup_iff).mpr h1
  have hdisj : ∀ t ∈ (sorted_tokens vocab (dedupFirst specials)).map Prod.fst,
      t ∉ dedupFirst specials := by
    intro t ht
    obtain ⟨kv, hkv, rfl⟩ := List.mem_map.mp ht
    have hkv2 := hperm.mem_iff.mp hkv
    have := List.mem_filter.mp hkv2
    simpa using this.2
  have htlNodup : (dedupFirst specials ++
      (sorted_tokens vocab (dedupFirst specials)).map Prod.fst).Nodup := by
    refine List.nodup_append.mpr ⟨dedupFirst_nodup specials, hrestNodup, ?_⟩
    intro a ha hb
    exact hdisj a hb ha
  refine ⟨?_, ?_, ?_, ?_, hperm, ?_⟩
  · simp only [build_token2id, List.map_map]
    have hcomp : (Prod.snd ∘ fun p : Nat × Str => (p.2, p.1)) = Prod.fst := rfl
    rw [hcomp, List.enum_map_fst]
  · unfold token_list
    by_cases he : eos ∈ dedupFirst specials ++
        (sorted_tokens vocab (dedupFirst specials)).map Prod.fst
    · simpa [he] using htlNodup
    · simp only [he, if_false]
      refine List.nodup_append.mpr ⟨htlNodup, List.nodup_singleton eos, ?_⟩
      intro a ha hb
      rw [List.mem_singleton] at hb
      subst hb
      exact he ha
  · unfold token_list
    by_cases he : eos ∈ dedupFirst specials ++
        (sorted_tokens vocab (dedupFirst specials)).map Prod.fst
    · simp only [he, if_true]
      exact List.take_left _ _
    · simp only [he, if_false, List.append_assoc]
      exact List.take_left _ _
  · exact List.sorted_mergeSort sortKeyLe_trans sortKeyLe_total _
  · unfold token_list
    by_cases he : eos ∈ dedupFirst specials ++
        (sorted_tokens vocab (dedupFirst specials)).map Prod.fst
    · rw [if_pos he]
      exact he
    · simp [he]

/-!
## The production tokenizer (src/tokenizer/main.py :: BPETokenizerProd)
-/

/-- Loaded tokenizer state (`BPETokenizerProd` fields after `load`).
`id2token` is the separate reverse map the loader builds; `unk_token`
is hard-coded to `"<UNK>"` in the source and is modelled by the literal
below. -/
structure Tokenizer where
  bpe_merges : List (Str × Str)
  token2id : List (Str × Nat)
  id2token : List (Nat × Str)
  eos_marker : Str
  special_tokens : List Str

/-- The literal `"<UNK>"` used by `encode_to_ids` and `decode_ids`. -/
def UNK : Str := "<UNK>".data

/-- `bpe_ranks`: pair → rank (position in the merge list). -/
def bpe_ranks (T : Tokenizer) : List ((Str × Str) × Nat) :=
  T.bpe_merges.enum.map (fun p => (p.2, p.1))

/-- `BPETokenizerProd._initial_symbols` (main.py lines 57-64): a special
token stays atomic; any other word is split into its INDIVIDUAL CODE
POINTS via `list(word)`; the end-of-morpheme marker is appended. -/
def initial_symbols (T : Tokenizer) (word : Str) : List Str :=
  if word ∈ T.special_tokens then [word, T.eos_marker]
  else (word.map (fun c => [c])) ++ [T.eos_marker]

/-- Per-word symbols of `_build_initial_vocab` (train.py lines 87-90):
a special token stays atomic; any other word is split into GRAPHEME
CLUSTERS; the end-of-morpheme marker is appended. -/
def train_initial_symbols (word : Str) (eos : Str) (specials : List Str) : List Str :=
  if word ∈ specials then [word, eos] else xGraphemeClusters word ++ [eos]

/-- `min(candidate_ranks, key=candidate_ranks.get)` (main.py lines
76-84): among the adjacent pairs that have a learned rank, the pair of
minimal rank (first such pair on a tie, though ranks are distinct per
pair). -/
def min_rank_pair (ranks : List ((Str × Str) × Nat)) (pairs : List (Str × Str)) :
    Option (Str × Str) :=
  match pairs.filterMap (fun p => (alookup ranks p).map (fun r => (p, r))) with
  | [] => none
  | c :: cs => some ((cs.foldl (fun m q => if q.2 < m.2 then q else m) c).1)

/-- The `while True` merge loop of `encode_word` (main.py lines 72-89).
`fuel` starts at the symbol-count; for whitespace-free words (the only
words the tokenizer pipeline produces) each iteration strictly shortens
the symbol list — every replacement deletes a space of the joined
string — so the fuel never runs out before the loop's own break
conditions fire. -/
def encode_loop (T : Tokenizer) : Nat → List Str → List Str
  | 0, symbols => symbols
  | fuel + 1, symbols =>
    if symbols.length < 2 then symbols
    else
      match min_rank_pair (bpe_ranks T) (adjacentPairs symbols) with
      | none => symbols
      | some best => encode_loop T fuel (encodeMergeStep best symbols)

/-- `BPETokenizerProd.encode_word` (uncached computation): initial
symbols, greedy rank-ordered merging, then drop a trailing
end-of-morpheme marker symbol if present. -/
def encode_word (T : Tokenizer) (word : Str) : List Str :=
  let symbols := initial_symbols T word
  let merged := encode_loop T symbols.length symbols
  match merged.getLast? with
  | some l => if l = T.eos_marker then merged.dropLast else merged
  | none => merged

/-- `text.strip().split()` of `BPETokenizerProd.encode`. -/
def wordsOf (text : Str) : List Str := splitWhitespace (stripWs text)

/-- `BPETokenizerProd.encode` with `return_words=True`. -/
def encode (T : Tokenizer) (text : Str) : List (List Str) :=
  (wordsOf text).map (encode_word T)

/-- `tokens_to_ids` inner function of `encode_to_ids`: `none` models the
Python `None` placeholder appended when both the token and the
unknown-token id are missing. -/
def tokens_to_ids (T : Tokenizer) (unkAsId : Option Nat) (toks : List Str) :
    List (Option Nat) :=
  toks.map (fun t =>
    match alookup T.token2id t with
    | some tid => some tid
    | none => unkAsId)

/-- `BPETokenizerProd.encode_to_ids` with `flatten=True` and the default
`unk_as_id=None` (resolved to `token2id.get("<UNK>")`). -/
def encode_to_ids (T : Tokenizer) (text : Str) : List (Option Nat) :=
  let unkAsId := alookup T.token2id UNK
  ((encode T text).map (tokens_to_ids T unkAsId)).flatten

/-- Id-to-token lookup of `decode_ids` (main.py lines 151-157): missing
ids become `"<UNK>"` when `"<UNK>"` is in the vocabulary, else the
empty string. -/
def decode_token (T : Tokenizer) (i : Nat) : Str :=
  match alookup T.id2token i with
  | some t => t
  | none => if (alookup T.token2id UNK).isSome then UNK else []

/-- One step of the word-regrouping loop of `decode_ids` (main.py lines
162-179), on the state (words so far, current word buffer). -/
def decode_regroup_step (T : Tokenizer) (st : List Str × List Str) (t : Str) :
    List Str × List Str :=
  if t ∈ T.special_tokens then
    (st.1 ++ (if st.2 = [] then [t] else [st.2.flatten, t]), [])
  else if t = T.eos_marker then
    (st.1 ++ [st.2.flatten], [])
  else (st.1, st.2 ++ [t])

/-- `BPETokenizerProd.decode_ids` with `flatten=True`. -/
def decode_ids (T : Tokenizer) (ids : List Nat) : Str :=
  let tokens := ids.map (decode_token T)
  let st := tokens.foldl (decode_regroup_step T) ([], [])
  let words := if st.2 = [] then st.1 else st.1 ++ [st.2.flatten]
  joinSp words

/-- Sequence a list of optional ids: `none` exactly when the Python list
contains a `None`, on which `decode_ids` would raise in `int(i)`. -/
def allSome {α : Type} : List (Option α) → Option (List α)
  | [] => some []
  | none :: _ => none
  | some a :: rest => (allSome rest).map (a :: ·)

/-- The round trip `decode_ids(encode_to_ids(text))` as executed by the
Python code (`none` models the raise on a `None` id). -/
def decode_encode (T : Tokenizer) (text : Str) : Option Str :=
  (allSome (encode_to_ids T text)).map (decode_ids T)

/-- A small loaded tokenizer used for concrete evaluations: two
in-vocabulary regular tokens, the marker and the unknown token, no
merges, default special tokens, default marker. -/
def sampleTokenizer : Tokenizer where
  bpe_merges := []
  token2id := [(['a'], 0), (['b'], 1), ("</M>".data, 2), (UNK, 3)]
  id2token := [(0, ['a']), (1, ['b']), (2, "</M>".data), (3, UNK)]
  eos_marker := "</M>".data
  special_tokens := DEFAULT_SPECIAL_TOKENS

/-- C3: the encoder's initial symbol sequence does NOT equal the
grapheme-cluster sequence used during training: `_initial_symbols`
splits a non-special word into individual code points (`list(word)`),
so the word `"कि"` (one grapheme cluster क+ि) becomes the two symbols
`"क"`, `"ि"` before the marker, while training segments it as the
single cluster `"कि"`.  The special-token half of the claim does hold:
a special token stays atomic (evaluated on `"<DANDA>"`). -/
theorem initial_symbols_not_grapheme_clusters :
    initial_symbols sampleTokenizer ['क', 'ि'] = [['क'], ['ि'], "</M>".data] ∧
    train_initial_symbols ['क', 'ि'] DEFAULT_EOS DEFAULT_SPECIAL_TOKENS =
      [['क', 'ि'], "</M>".data] ∧
    initial_symbols sampleTokenizer ['क', 'ि'] ≠
      train_initial_symbols ['क', 'ि'] DEFAULT_EOS DEFAULT_SPECIAL_TOKENS ∧
    initial_symbols sampleTokenizer "<DANDA>".data = ["<DANDA>".data, "</M>".data] ∧
    train_initial_symbols "<DANDA>".data DEFAULT_EOS DEFAULT_SPECIAL_TOKENS =
      ["<DANDA>".data, "</M>".data] := by
  refine ⟨by decide, by decide, by decide, by decide, by decide⟩

/-- C4 counterexample: on the loaded tokenizer `sampleTokenizer`, whose
vocabulary contains both words of the text `"a b"`, the round trip
returns `"ab"`, not `"a b"`: `encode_word` strips the trailing
end-of-morpheme marker from every word, so the flat id stream carries
no word boundary and `decode_ids` concatenates the two words. -/
theorem decode_encode_not_roundtrip :
    decode_encode sampleTokenizer "a b".data = some "ab".data ∧
    "ab".data ≠ "a b".data := by
  refine ⟨by decide, by decide⟩

/-!
## Concatenation invariance of encoding (claim C4)
-/

/-- Remove every space character. -/
def dropSp (s : Str) : Str := s.filter (fun c => c != ' ')

theorem dropSp_cons (c : Char) (s : Str) :
    dropSp (c :: s) = if c = ' ' then dropSp s else c :: dropSp s := by
  simp only [dropSp, List.filter_cons]
  by_cases h : c = ' ' <;> simp [h]

theorem dropSp_append (a b : Str) : dropSp (a ++ b) = dropSp a ++ dropSp b := by
  simp [dropSp, List.filter_append]

theorem dropSp_eq_self (s : Str) (h : ' ' ∉ s) : dropSp s = s := by
  apply List.filter_eq_self.mpr
  intro a ha
  simp only [bne_iff_ne, ne_eq]
  intro heq
  exact h (heq ▸ ha)

theorem splitOnSp_flatten (s : Str) : (splitOnSp s).flatten = dropSp s := by
  induction s with
  | nil => rfl
  | cons c rest ih =>
    rw [dropSp_cons]
    by_cases h : c = ' '
    · subst h
      simp [splitOnSp, ih]
    · rcases hsp : splitOnSp rest with _ | ⟨w, ws⟩
      · rw [hsp] at ih
        simp only [splitOnSp, if_neg h, hsp, if_neg h]
        simp only [List.flatten_nil] at ih
        simp [← ih]
      · rw [hsp] at ih
        simp only [splitOnSp, if_neg h, hsp, if_neg h]
        simp only [List.flatten_cons] at ih ⊢
        rw [← ih]
        simp

theorem splitOnSp_spaceFree (s : Str) : ∀ w ∈ splitOnSp s, ' ' ∉ w := by
  induction s with
  | nil =>
    intro w hw
    simp only [splitOnSp, List.mem_singleton] at hw
    subst hw
    exact List.not_mem_nil ' '
  | cons c rest ih =>
    intro w hw
    by_cases h : c = ' '
    · subst h
      have heq : splitOnSp (' ' :: rest) = [] :: splitOnSp rest := by
        simp [splitOnSp]
      rw [heq] at hw
      rcases List.mem_cons.mp hw with hw | hw
      · subst hw
        exact List.not_mem_nil ' '
      · exact ih w hw
    · cases hsp : splitOnSp rest with
      | nil =>
        simp only [splitOnSp, if_neg h, hsp, List.mem_singleton] at hw
        subst hw
        intro hc
        rcases List.mem_cons.mp hc with hc | hc
        · exact h hc.symm
        · exact List.not_mem_nil ' ' hc
      | cons w0 ws =>
        simp only [splitOnSp, if_neg h, hsp, List.mem_cons] at hw
        rcases hw with rfl | hw
        · intro hc
          rcases List.mem_cons.mp hc with hc | hc
          · exact h hc.symm
          · exact ih w0 (hsp ▸ List.mem_cons_self w0 ws) hc
        · exact ih w (hsp ▸ List.mem_cons_of_mem w0 hw)

theorem replaceAllCore_dropSp (p : Char) (ps rep : Str)
    (h : dropSp rep = dropSp (p :: ps)) :
    ∀ (fuel : Nat) (s : Str), dropSp (replaceAllCore p ps rep fuel s) = dropSp s := by
  intro fuel
  induction fuel with
  | zero => intro s; cases s <;> simp [replaceAllCore]
  | succ fuel ih =>
    intro s
    cases s with
    | nil => simp [replaceAllCore]
    | cons c rest =>
      by_cases hp : (p :: ps).isPrefixOf (c :: rest) = true
      · obtain ⟨t, ht⟩ := List.isPrefixOf_iff_prefix.mp hp
        have hdrop : rest.drop ps.length = t := by
          have hrest : rest = ps ++ t := by
            have h2 := ht
            simp only [List.cons_append, List.cons.injEq] at h2
            exact h2.2.symm
          rw [hrest, List.drop_left]
        simp only [replaceAllCore, hp, if_true, hdrop]
        rw [dropSp_append, h, ih t, ← dropSp_append, ht]
      · simp only [replaceAllCore]
        rw [if_neg hp, dropSp_cons, dropSp_cons, ih rest]

theorem replaceAll_dropSp (pat rep s : Str) (h : dropSp rep = dropSp pat) :
    dropSp (replaceAll pat rep s) = dropSp s := by
  cases pat with
  | nil => rfl
  | cons p ps => exact replaceAllCore_dropSp p ps rep h s.length s

theorem joinSp_dropSp (syms : List Str) (h : ∀ sym ∈ syms, ' ' ∉ sym) :
    dropSp (joinSp syms) = syms.flatten := by
  induction syms with
  | nil => rfl
  | cons w ws ih =>
    cases ws with
    | nil =>
      simp only [joinSp, List.flatten_cons, List.flatten_nil, List.append_nil]
      exact dropSp_eq_self w (h w (List.mem_cons_self _ _))
    | cons y ys =>
      have hw : ' ' ∉ w := h w (List.mem_cons_self _ _)
      have htail : ∀ sym ∈ y :: ys, ' ' ∉ sym := fun sym hs =>
        h sym (List.mem_cons_of_mem _ hs)
      simp only [joinSp, List.flatten_cons]
      rw [dropSp_append, dropSp_cons, if_pos rfl, dropSp_eq_self w hw]
      rw [show dropSp (joinSp (y :: ys)) = (y :: ys).flatten from ih htail]
      simp

theorem dropSp_bigram (a b : Str) : dropSp (a ++ b) = dropSp (a ++ ' ' :: b) := by
  rw [dropSp_append, dropSp_append, dropSp_cons, if_pos rfl]

theorem encodeMergeStep_flatten (best : Str × Str) (syms : List Str)
    (h : ∀ sym ∈ syms, ' ' ∉ sym) :
    (encodeMergeStep best syms).flatten = syms.flatten := by
  unfold encodeMergeStep
  rw [splitOnSp_flatten, replaceAll_dropSp _ _ _ (dropSp_bigram best.1 best.2),
    joinSp_dropSp syms h]

theorem encode_loop_flatten (T : Tokenizer) :
    ∀ (fuel : Nat) (syms : List Str), (∀ sym ∈ syms, ' ' ∉ sym) →
      (encode_loop T fuel syms).flatten = syms.flatten ∧
      ∀ sym ∈ encode_loop T fuel syms, ' ' ∉ sym := by
  intro fuel
  induction fuel with
  | zero => intro syms h; exact ⟨rfl, h⟩
  | succ fuel ih =>
    intro syms h
    simp only [encode_loop]
    by_cases hlen : syms.length < 2
    · rw [if_pos hlen]
      exact ⟨rfl, h⟩
    · rw [if_neg hlen]
      cases hsel : min_rank_pair (bpe_ranks T) (adjacentPairs syms) with
      | none => exact ⟨rfl, h⟩
      | some best =>
        have hsf : ∀ sym ∈ encodeMergeStep best syms, ' ' ∉ sym :=
          fun sym hs => splitOnSp_spaceFree _ sym hs
        obtain ⟨h1, h2⟩ := ih (encodeMergeStep best syms) hsf
        exact ⟨h1.trans (encodeMergeStep_flatten best syms h), h2⟩

theorem flatten_singletons (w : Str) : (w.map (fun c => [c])).flatten = w := by
  induction w with
  | nil => rfl
  | cons c rest ih => simp [ih]

theorem encode_word_flatten (T : Tokenizer) (w : Str) (hw : ' ' ∉ w)
    (he : ' ' ∉ T.eos_marker) :
    (encode_word T w).flatten = w ∨ (encode_word T w).flatten = w ++ T.eos_marker := by
  have hsf : ∀ sym ∈ initial_symbols T w, ' ' ∉ sym := by
    intro sym hs
    unfold initial_symbols at hs
    by_cases hspec : w ∈ T.special_tokens
    · rw [if_pos hspec] at hs
      rcases List.mem_cons.mp hs with rfl | hs
      · exact hw
      · rcases List.mem_cons.mp hs with rfl | hs
        · exact he
        · exact absurd hs (List.not_mem_nil sym)
    · rw [if_neg hspec] at hs
      rcases List.mem_append.mp hs with hs | hs
      · obtain ⟨c, hc, rfl⟩ := List.mem_map.mp hs
        intro hsp
        rw [List.mem_singleton] at hsp
        exact hw (hsp ▸ hc)
      · rw [List.mem_singleton] at hs
        exact hs ▸ he
  have hinit : (initial_symbols T w).flatten = w ++ T.eos_marker := by
    unfold initial_symbols
    by_cases hspec : w ∈ T.special_tokens
    · simp [hspec]
    · simp [hspec, flatten_singletons]
  have hmerged : (encode_loop T (initial_symbols T w).length (initial_symbols T w)).flatten =
      w ++ T.eos_marker :=
    ((encode_loop_flatten T _ _ hsf).1).trans hinit
  unfold encode_word
  rcases hlast : (encode_loop T (initial_symbols T w).length (initial_symbols T w)).getLast?
    with _ | l
  · simp only
    rw [hlast]
    exact Or.inr hmerged
  · simp only
    rw [hlast]
    dsimp only
    by_cases heq : l = T.eos_marker
    · rw [if_pos heq]
      left
      have hne : encode_loop T (initial_symbols T w).length (initial_symbols T w) ≠ [] := by
        intro hnil
        rw [hnil] at hlast
        simp at hlast
      have hsplit : (encode_loop T (initial_symbols T w).length
          (initial_symbols T w)).dropLast ++ [l] =
          encode_loop T (initial_symbols T w).length (initial_symbols T w) := by
        have hgl : (encode_loop T (initial_symbols T w).length
            (initial_symbols T w)).getLast hne = l := by
          rw [List.getLast?_eq_getLast _ hne] at hlast
          exact (Option.some.injEq _ _ ▸ hlast.symm).symm
        rw [← hgl]
        exact List.dropLast_append_getLast hne
      have : ((encode_loop T (initial_symbols T w).length
          (initial_symbols T w)).dropLast).flatten ++ l = w ++ T.eos_marker := by
        rw [← hmerged, ← hsplit]
        simp
      rw [heq] at this
      exact List.append_cancel_right this
    · rw [if_neg heq]
      exact Or.inr hmerged

theorem decode_regroup_plain (T : Tokenizer) :
    ∀ (toks : List Str) (ws cur : List Str),
      (∀ t ∈ toks, t ∉ T.special_tokens ∧ t ≠ T.eos_marker) →
      toks.foldl (decode_regroup_step T) (ws, cur) = (ws, cur ++ toks) := by
  intro toks
  induction toks with
  | nil => intro ws cur _; simp
  | cons t ts ih =>
    intro ws cur h
    have ht := h t (List.mem_cons_self _ _)
    have hstep : decode_regroup_step T (ws, cur) t = (ws, cur ++ [t]) := by
      unfold decode_regroup_step
      rw [if_neg ht.1, if_neg ht.2]
    rw [List.foldl_cons, hstep, ih (ws) (cur ++ [t])
      (fun x hx => h x (List.mem_cons_of_mem _ hx))]
    simp

theorem tokens_roundtrip (T : Tokenizer) (unkAsId : Option Nat) :
    ∀ toks : List Str,
      (∀ t ∈ toks, ∃ i, alookup T.token2id t = some i ∧ alookup T.id2token i = some t) →
      ∃ ids : List Nat,
        allSome (tokens_to_ids T unkAsId toks) = some ids ∧
        ids.map (decode_token T) = toks := by
  intro toks
  induction toks with
  | nil => intro _; exact ⟨[], rfl, rfl⟩
  | cons t ts ih =>
    intro h
    obtain ⟨i, h1, h2⟩ := h t (List.mem_cons_self _ _)
    obtain ⟨ids, hall, hmap⟩ := ih (fun x hx => h x (List.mem_cons_of_mem _ hx))
    refine ⟨i :: ids, ?_, ?_⟩
    · simp only [tokens_to_ids, List.map_cons, h1]
      simp only [tokens_to_ids] at hall
      simp [allSome, hall]
    · simp only [List.map_cons, hmap, decode_token, h2]

theorem flatten_flatten_map (ws : List Str) (f : Str → List Str) :
    ((ws.map f).flatten).flatten = (ws.map (fun w => (f w).flatten)).flatten := by
  induction ws with
  | nil => rfl
  | cons w rest ih => simp [ih]

theorem encode_to_ids_eq (T : Tokenizer) (text : Str) :
    encode_to_ids T text =
      tokens_to_ids T (alookup T.token2id UNK) ((encode T text).flatten) := by
  unfold encode_to_ids tokens_to_ids
  rw [List.map_flatten]

/-- C4 amended: the round trip does not restore word boundaries:
because `encode_word` strips the trailing end-of-morpheme marker that
`decode_ids` uses to re-segment the flat token stream into words,
`decode_ids(encode_to_ids(text))` returns the text's words CONCATENATED
WITHOUT SEPARATORS (hence equals the text exactly only for single-word
texts).  This holds for every loaded tokenizer and every text whose
words are in-vocabulary in the strong sense the claim intends: each
word's encoded tokens concatenate back to the word, are neither special
tokens nor the marker, and round-trip through `token2id`/`id2token`. -/
theorem decode_encode_concats_words (T : Tokenizer) (text : Str)
    (h : ∀ w ∈ wordsOf text,
        (encode_word T w).flatten = w ∧
        ∀ t ∈ encode_word T w,
          t ∉ T.special_tokens ∧ t ≠ T.eos_marker ∧
          ∃ i, alookup T.token2id t = some i ∧ alookup T.id2token i = some t) :
    decode_encode T text = some (wordsOf text).flatten ∧
    (wordsOf text = [text] → decode_encode T text = some text) := by
  have hflatTok : ∀ t ∈ (encode T text).flatten,
      t ∉ T.special_tokens ∧ t ≠ T.eos_marker ∧
      ∃ i, alookup T.token2id t = some i ∧ alookup T.id2token i = some t := by
    intro t ht
    obtain ⟨toks, htoks, htmem⟩ := List.mem_flatten.mp ht
    obtain ⟨w, hw, rfl⟩ := List.mem_map.mp htoks
    exact (h w hw).2 t htmem
  obtain ⟨ids, hall, hmap⟩ := tokens_roundtrip T (alookup T.token2id UNK)
    ((encode T text).flatten) (fun t ht => (hflatTok t ht).2.2)
  have hdec : decode_encode T text = some (decode_ids T ids) := by
    unfold decode_encode
    rw [encode_to_ids_eq, hall]
    rfl
  have hdecoded : decode_ids T ids = ((encode T text).flatten).flatten := by
    unfold decode_ids
    rw [hmap]
    dsimp only
    rw [decode_regroup_plain T ((encode T text).flatten) [] []
      (fun t ht => ⟨(hflatTok t ht).1, (hflatTok t ht).2.1⟩)]
    cases hft : (encode T text).flatten with
    | nil => simp [joinSp]
    | cons t0 ts =>
      simp only [List.nil_append]
      rw [if_neg (by simp : ¬ (t0 :: ts = []))]
      simp [joinSp]
  have hchain : ((encode T text).flatten).flatten = (wordsOf text).flatten := by
    unfold encode
    rw [flatten_flatten_map]
    congr 1
    calc (wordsOf text).map (fun w => (encode_word T w).flatten)
        = (wordsOf text).map id := List.map_congr_left (fun w hw => (h w hw).1)
      _ = wordsOf text := List.map_id _
  constructor
  · rw [hdec, hdecoded, hchain]
  · intro hsingle
    rw [hdec, hdecoded, hchain, hsingle]
    simp

/-- Concrete instantiation of `decode_encode_concats_words` on
`sampleTokenizer` and the single-word text `"a"`: the round trip
returns the word concatenation, which for a one-word text is the text
itself. -/
theorem decode_encode_concats_words_witness :
    decode_encode sampleTokenizer "a".data = some (wordsOf "a".data).flatten ∧
    (wordsOf "a".data = ["a".data] →
      decode_encode sampleTokenizer "a".data = some "a".data) := by
  apply decode_encode_concats_words sampleTokenizer "a".data
  intro w hw
  have hw2 : w = ['a'] := by
    have hws : wordsOf "a".data = [['a']] := by decide
    rw [hws] at hw
    simpa using hw
  subst hw2
  have henc : encode_word sampleTokenizer ['a'] = [['a']] := by decide
  refine ⟨by rw [henc]; rfl, ?_⟩
  intro t ht
  rw [henc] at ht
  have ht2 : t = ['a'] := by simpa using ht
  subst ht2
  exact ⟨by decide, by decide, 0, by decide, by decide⟩

/-!
## The per-word encode cache (claim C10)

`encode_word` stores `list(symbols)` in `self._encode_cache[word]` and
returns `list(...)` copies both on the cached and the uncached path
(main.py lines 67-68, 94-95); because only copies ever cross the cache
boundary, the cache entries are immutable values and the pure
state-passing model below is faithful: a caller mutating a returned
list mutates its private copy only.
-/

/-- The `_encode_cache` dict: word → cached symbol list. -/
abbrev EncodeCache := List (Str × List Str)

/-- `encode_word` with its memoization (main.py lines 66-95): a cache
hit returns the stored value; a miss computes, stores and returns. -/
def encode_word_cached (T : Tokenizer) (cache : EncodeCache) (word : Str) :
    List Str × EncodeCache :=
  match alookup cache word with
  | some v => (v, cache)
  | none => (encode_word T word, cache ++ [(word, encode_word T word)])

/-- Cache invariant: every stored entry is exactly the uncached
computation on its key. -/
def CacheWF (T : Tokenizer) (cache : EncodeCache) : Prop :=
  ∀ kv ∈ cache, kv.2 = encode_word T kv.1

theorem alookup_mem {α β : Type} [DecidableEq α] :
    ∀ (l : List (α × β)) (k : α) (v : β), alookup l k = some v → (k, v) ∈ l := by
  intro l
  induction l with
  | nil => intro k v h; simp [alookup] at h
  | cons kv rest ih =>
    intro k v h
    obtain ⟨k', v'⟩ := kv
    by_cases heq : k = k'
    · subst heq
      have h2 : v' = v := by simpa [alookup] using h
      subst h2
      exact List.mem_cons_self _ _
    · simp only [alookup, if_neg heq] at h
      exact List.mem_cons_of_mem _ (ih k v h)

theorem encode_word_cached_wf (T : Tokenizer) (cache : EncodeCache) (w : Str)
    (h : CacheWF T cache) :
    (encode_word_cached T cache w).1 = encode_word T w ∧
    CacheWF T (encode_word_cached T cache w).2 := by
  unfold encode_word_cached
  cases hl : alookup cache w with
  | some v => exact ⟨h (w, v) (alookup_mem cache w v hl), h⟩
  | none =>
    refine ⟨rfl, ?_⟩
    intro kv hkv
    rcases List.mem_append.mp hkv with hkv | hkv
    · exact h kv hkv
    · rw [List.mem_singleton] at hkv
      subst hkv
      rfl

/-- C10: on a well-formed cache (as every cache reachable from the
empty one is), `encode_word`'s memoized path returns exactly the
sequence the uncached computation produces, the cache stays well-formed
after the call, and an immediately repeated call on the same word
returns an equal symbol sequence.  (The Python copy-in/copy-out
discipline quoted above is what makes callers unable to mutate cache
state, so equality of the pure values is the full observable
behaviour.) -/
theorem encode_word_cached_spec (T : Tokenizer) (cache : EncodeCache) (w : Str)
    (h : CacheWF T cache) :
    (encode_word_cached T cache w).1 = encode_word T w ∧
    CacheWF T (encode_word_cached T cache w).2 ∧
    (encode_word_cached T (encode_word_cached T cache w).2 w).1 =
      (encode_word_cached T cache w).1 := by
  obtain ⟨h1, h2⟩ := encode_word_cached_wf T cache w h
  obtain ⟨h3, _⟩ := encode_word_cached_wf T (encode_word_cached T cache w).2 w h2
  exact ⟨h1, h2, h3.trans h1.symm⟩

/-- Concrete instantiation of `encode_word_cached_spec` on
`sampleTokenizer`, the empty cache and the word `"a"`. -/
theorem encode_word_cached_spec_witness :
    (encode_word_cached sampleTokenizer [] ['a']).1 = encode_word sampleTokenizer ['a'] ∧
    CacheWF sampleTokenizer (encode_word_cached sampleTokenizer [] ['a']).2 ∧
    (encode_word_cached sampleTokenizer
        (encode_word_cached sampleTokenizer [] ['a']).2 ['a']).1 =
      (encode_word_cached sampleTokenizer [] ['a']).1 :=
  encode_word_cached_spec sampleTokenizer [] ['a'] (by intro kv hkv; simp at hkv)

/-!
## Visarga reversal (claim C8, src/preprocessor/sandhi_split.py)
-/

/-- The visarga mark U+0903. -/
def VISARGA : Char := 'ः'

/-- `visarga_replacements` from src/preprocessor/sandhi_split.py
(lines 216-229): with no following character, only the deletion
candidate `""`; otherwise deletion plus the two sibilant-plus-virāma
substitutions. -/
def visarga_replacements (next_ch : Str) : List Str :=
  if next_ch = [] then [[]]
  else [[], ['स', VIRAMA], ['श', VIRAMA]]

/-- Python `s.endswith(suffix)`. -/
def strEndsWith (s suffix : Str) : Bool := suffix.isSuffixOf s

/-- The visarga branch of `reverse_at_boundary` (sandhi_split.py lines
303-307): when `left` ends with the visarga mark, append one candidate
`(left[:-1] + rep, right)` per replacement, the next character passed
being the first code point of the first right-hand grapheme cluster
(empty when absent). -/
def visarga_branch (left right first : Str) : List (Str × Str) :=
  if strEndsWith left [VISARGA] then
    (visarga_replacements (first.take 1)).map (fun rep => (left.dropLast ++ rep, right))
  else []

/-- C8 counterexample: when no following character is supplied the
visarga reversal proposes exactly ONE candidate (the deletion), not
three: `visarga_replacements("")` returns `[""]`. -/
theorem visarga_no_context_single_candidate :
    visarga_replacements [] = [[]] ∧ (visarga_replacements []).length ≠ 3 := by
  exact ⟨rfl, by decide⟩

/-- C8 amended: whenever a following character IS supplied, the visarga
reversal proposes exactly the three candidates the claim lists —
deletion, स्-substitution, श्-substitution — regardless of which
character follows; at a `reverse_at_boundary` boundary whose left part
ends with the visarga mark and whose right part has a first grapheme
cluster (always the case there, since the branch is only reached with
non-empty `right`), the visarga branch contributes exactly those three
candidate pairs.  With no following character, only the deletion
candidate is proposed. -/
theorem visarga_three_candidates_with_context :
    (∀ next_ch : Str, next_ch ≠ [] →
        visarga_replacements next_ch = [[], ['स', VIRAMA], ['श', VIRAMA]]) ∧
    visarga_replacements [] = [[]] ∧
    ∀ left right first : Str, strEndsWith left [VISARGA] = true → first ≠ [] →
      visarga_branch left right first =
        [(left.dropLast, right), (left.dropLast ++ ['स', VIRAMA], right),
          (left.dropLast ++ ['श', VIRAMA], right)] := by
  refine ⟨?_, rfl, ?_⟩
  · intro next h
    rw [visarga_replacements, if_neg h]
  · intro left right first hend hfirst
    unfold visarga_branch
    rw [if_pos hend]
    have htake : first.take 1 ≠ [] := by
      cases first with
      | nil => exact absurd rfl hfirst
      | cons c rest => simp
    rw [visarga_replacements, if_neg htake]
    simp

/-- Concrete instantiation of `visarga_three_candidates_with_context`:
following character `"त"` yields the three replacement candidates, and
the boundary `("कः", "त")` yields the three candidate pairs. -/
theorem visarga_three_candidates_witness :
    visarga_replacements ['त'] = [[], ['स', VIRAMA], ['श', VIRAMA]] ∧
    visarga_branch ['क', 'ः'] ['त'] ['त'] =
      [(['क'], ['त']), (['क', 'स', VIRAMA], ['त']), (['क', 'श', VIRAMA], ['त'])] := by
  constructor
  · exact visarga_three_candidates_with_context.1 ['त'] (by decide)
  · rw [visarga_three_candidates_with_context.2.2 ['क', 'ः'] ['त'] ['त']
      (by decide) (by decide)]
    decide

end Anvaya
